import Mathlib

/-!
Verification of `src/parallel_merge_sort.c` (portscher/parallel_algorithms).

The C program sorts an array of `int32_t` with a recursive merge sort whose
driver chooses, by sub-range size, between a sequential merge and a "parallel"
merge (identical interleave logic; only the copy-out loops are parallelised in
C, over disjoint buffers, so the value-level semantics is the same function).

Shallow embedding conventions:
* the `int32_t` array is a `List Int`: the program only copies and compares
  elements, never performs arithmetic on them, so mathematical integers model
  `int32_t` values faithfully (no overflow can occur);
* indices (`left`, `mid`, `right`, `i`, `j`, `k`, `n`) are `Nat`.  All
  reachable recursive calls of the C driver keep `0 <= left <= right+1`, so
  `Nat` and C `int` agree on every reachable call; the only negative index in
  a run is the top-level `right = n-1 = -1` when `n = 0`, where the C guard
  `left < right` fails exactly as the `Nat`-truncated guard `0 < 0` does;
* in-place writes `arr[k] = v` become `List.set`;
* reading `arr[i]` inside a loop whose guard bounds `i` becomes `List.get`
  with the bound in scope.
-/

namespace PMS

/-- The copy-out loops `for (i = 0; i < n; i++) B[i] = arr[start + i];` filling
a fresh temporary buffer of size `n`: the buffer ends up holding exactly the
`n`-element slice of `arr` starting at `start`. -/
def copyOut (arr : List Int) (start n : Nat) : List Int :=
  (arr.drop start).take n

/-- The three write-back `while` loops shared verbatim by `merge_parallel`
(C lines 63-91) and `merge_sequential` (C lines 126-154):
`while (i < n1 && j < n2) { if (L[i] <= R[j]) arr[k++] = L[i++]; else arr[k++] = R[j++]; }`
then `while (i < n1) arr[k++] = L[i++];` then `while (j < n2) arr[k++] = R[j++];`.
When `j` is exhausted the combined recursion is the second loop, when `i` is
exhausted it is the third, exactly as the sequential composition in C. -/
def merge_loop (L R : List Int) (i j k : Nat) (arr : List Int) : List Int :=
  if hi : i < L.length then
    if hj : j < R.length then
      if L.get ⟨i, hi⟩ ≤ R.get ⟨j, hj⟩ then
        merge_loop L R (i+1) j (k+1) (arr.set k (L.get ⟨i, hi⟩))
      else
        merge_loop L R i (j+1) (k+1) (arr.set k (R.get ⟨j, hj⟩))
    else
      merge_loop L R (i+1) j (k+1) (arr.set k (L.get ⟨i, hi⟩))
  else if hj : j < R.length then
    merge_loop L R i (j+1) (k+1) (arr.set k (R.get ⟨j, hj⟩))
  else arr
termination_by (L.length - i) + (R.length - j)
decreasing_by all_goals omega

/-- C function `merge_parallel` (lines 31-94): allocates `L` (size
`n1 = mid-left+1`) and `R` (size `n2 = right-mid`) with `calloc`, fills them
from `arr[left..mid]` and `arr[mid+1..right]` (two `omp for` loops over
disjoint source ranges and disjoint destination buffers, joined by the end of
the `omp parallel` region before the interleave starts), then runs the
interleave/copy-back loops with `i = j = 0`, `k = left`.  This is the
value-level semantics with the allocations succeeding; the unchecked `calloc`
failure path is modelled separately by `merge_parallel_alloc`. -/
def merge_parallel (arr : List Int) (left mid right : Nat) : List Int :=
  let n1 := mid - left + 1
  let n2 := right - mid
  let L := copyOut arr left n1
  let R := copyOut arr (mid + 1) n2
  merge_loop L R 0 0 left arr

/-- C function `merge_sequential` (lines 103-155): identical to
`merge_parallel` except that `L` and `R` are stack-allocated VLAs and the two
copy loops run sequentially; the buffers and the interleave are the same. -/
def merge_sequential (arr : List Int) (left mid right : Nat) : List Int :=
  let n1 := mid - left + 1
  let n2 := right - mid
  let L := copyOut arr left n1
  let R := copyOut arr (mid + 1) n2
  merge_loop L R 0 0 left arr

/-- C function `merge_sort_recursive` (lines 163-190): if `left < right`,
split at `mid = left + (right-left)/2`; below the threshold 2000 recurse on
the two halves and call `merge_sequential`, otherwise fork the two recursive
sorts as OpenMP tasks, `taskwait` for both, and call `merge_parallel`.  The
two tasks write disjoint ranges `[left,mid]` and `[mid+1,right]`, and the
`taskwait` barrier orders both before the merge, so their joint effect is the
sequential composition written here. -/
def merge_sort_recursive (arr : List Int) (left right : Nat) : List Int :=
  if left < right then
    let size := right - left
    let mid := left + size / 2
    if size < 2000 then
      merge_sequential
        (merge_sort_recursive (merge_sort_recursive arr left mid) (mid + 1) right)
        left mid right
    else
      merge_parallel
        (merge_sort_recursive (merge_sort_recursive arr left mid) (mid + 1) right)
        left mid right
  else arr
termination_by right - left
decreasing_by all_goals omega

/-- C function `is_array_sorted` (lines 198-211): returns 1 for `n = 0` or
`n = 1` without touching the array; otherwise returns 0 if
`arr[n-1] < arr[n-2]` and recurses on `n-1`.  Out-of-range reads (which the C
makes only when `n` exceeds the array length, undefined behaviour) are
modelled by `getD` with default 0. -/
def is_array_sorted (arr : List Int) (n : Nat) : Nat :=
  if n = 1 ∨ n = 0 then 1
  else if arr.getD (n - 1) 0 < arr.getD (n - 2) 0 then 0
  else is_array_sorted arr (n - 1)
termination_by n
decreasing_by omega

/-- Specification-level recursive merge of two runs; `merge_loop` computes it
(theorem `merge_loop_eq`).  Mirrors the interleave's comparison `L[i] <= R[j]`
(ties take the left run's head). -/
def mergeRuns : List Int → List Int → List Int
  | [], r => r
  | l, [] => l
  | a :: l, b :: r =>
    if a ≤ b then a :: mergeRuns l (b :: r) else b :: mergeRuns (a :: l) r
termination_by l r => l.length + r.length

/-- The inclusive sub-range `arr[left..right]` as a list. -/
def slice (arr : List Int) (left right : Nat) : List Int :=
  (arr.drop left).take (right + 1 - left)

/-- One `calloc(n, sizeof(int32_t))` call: a zeroed buffer on success, `none`
when out of memory.  Whether the allocation succeeds is an environment
choice, passed in as the `ok` flag. -/
def calloc (ok : Bool) (n : Nat) : Option (List Int) :=
  if ok then some (List.replicate n 0) else none

/-- Observable outcome of one `merge_parallel` call under a fallible
allocator. -/
inductive MergeOutcome where
  /-- the merge completed and the array now holds this value -/
  | ok (arr : List Int)
  /-- the function wrote through a NULL pointer: undefined behaviour (in
  practice a crash); no error value reaches the caller, since the C function
  returns `void` and has no error channel. -/
  | nullPointerWrite

/-- C `merge_parallel` (lines 31-94) with the two `calloc` results made
explicit.  The source stores the `calloc` results into `L` and `R` (lines
39-43) and never compares them against NULL: if allocating `L` fails, the
first copy loop runs `n1 = mid-left+1 >= 1` iterations and its first
iteration writes through the null `L`; if allocating `R` fails, the second
copy loop does the same whenever `n2 = right-mid >= 1` (and when `n2 = 0`
the null `R` is never dereferenced and the merge completes). -/
def merge_parallel_alloc (okL okR : Bool) (arr : List Int)
    (left mid right : Nat) : MergeOutcome :=
  let n1 := mid - left + 1
  let n2 := right - mid
  match calloc okL n1, calloc okR n2 with
  | some _, some _ => .ok (merge_parallel arr left mid right)
  | none, _ => .nullPointerWrite
  | some _, none =>
    if n2 = 0 then .ok (merge_parallel arr left mid right)
    else .nullPointerWrite

/-- Result of the C call `strtol(argv[1], &endptr, 0)` (libc, abstracted):
either `errno` was set (e.g. `ERANGE`), or no digits were found
(`endptr == str`), or a parsed value `n`. -/
inductive StrtolResult where
  | errnoSet
  | noDigits
  | value (n : Int)

/-- Exit status of C `main` (lines 214-297), with the environment made
explicit: `argc` from the command line, `arg` the `strtol` outcome on
`argv[1]`, `allocOk` whether `calloc` for the array succeeds, and `arr` the
pseudo-randomly filled array (the C code guarantees only its length `n`).
The branches mirror the source in order: usage check (`argc != 2` →
`EXIT_FAILURE = 1`), `errno != 0` → 1, `endptr == str` → 1, `n < 0` → 1,
`arr == NULL` → 1; then `merge_sort_recursive(arr, 0, n-1)` runs and
`assert(is_array_sorted(arr, n))` aborts the process via `SIGABRT`
(observed exit status 134) if it fails, else `EXIT_SUCCESS = 0`. -/
def main_exit (argc : Nat) (arg : StrtolResult) (allocOk : Bool)
    (arr : List Int) : Nat :=
  if argc ≠ 2 then 1
  else
    match arg with
    | .errnoSet => 1
    | .noDigits => 1
    | .value n =>
      if n < 0 then 1
      else if !allocOk then 1
      else if is_array_sorted (merge_sort_recursive arr 0 (n.toNat - 1)) n.toNat = 1
        then 0
      else 134

theorem mergeRuns_nil_left (r : List Int) : mergeRuns [] r = r := by
  cases r <;> simp [mergeRuns]

theorem mergeRuns_nil_right (l : List Int) : mergeRuns l [] = l := by
  cases l <;> simp [mergeRuns]

theorem mergeRuns_cons_cons (a b : Int) (l r : List Int) :
    mergeRuns (a :: l) (b :: r) =
      if a ≤ b then a :: mergeRuns l (b :: r) else b :: mergeRuns (a :: l) r := by
  simp [mergeRuns]

/-- The interleave produces a permutation of its two input runs. -/
theorem mergeRuns_perm (l r : List Int) : (mergeRuns l r).Perm (l ++ r) := by
  induction l, r using mergeRuns.induct with
  | case1 r => simp [mergeRuns_nil_left]
  | case2 l => simp [mergeRuns_nil_right]
  | case3 a l b r hle ih =>
    rw [mergeRuns_cons_cons, if_pos hle]
    exact ih.cons a
  | case4 a l b r hle ih =>
    rw [mergeRuns_cons_cons, if_neg hle]
    exact (ih.cons b).trans List.perm_middle.symm

/-- The interleave of two sorted runs is sorted. -/
theorem mergeRuns_sorted : ∀ {l r : List Int}, l.Sorted (· ≤ ·) → r.Sorted (· ≤ ·) →
    (mergeRuns l r).Sorted (· ≤ ·) := by
  intro l r hl hr
  induction l, r using mergeRuns.induct with
  | case1 r => rwa [mergeRuns_nil_left]
  | case2 l => rwa [mergeRuns_nil_right]
  | case3 a l b r hle ih =>
    rw [mergeRuns_cons_cons, if_pos hle]
    rw [List.sorted_cons] at hl ⊢
    refine ⟨?_, ih hl.2 hr⟩
    intro x hx
    rcases (List.mem_append.mp ((mergeRuns_perm _ _).subset hx)) with hxl | hxbr
    · exact hl.1 x hxl
    · rcases List.mem_cons.mp hxbr with rfl | hxr
      · exact hle
      · exact le_trans hle ((List.sorted_cons.mp hr).1 x hxr)
  | case4 a l b r hle ih =>
    rw [mergeRuns_cons_cons, if_neg hle]
    rw [List.sorted_cons] at hr ⊢
    refine ⟨?_, ih hl hr.2⟩
    intro x hx
    rcases (List.mem_append.mp ((mergeRuns_perm _ _).subset hx)) with hxal | hxr
    · rcases List.mem_cons.mp hxal with rfl | hxl
      · exact le_of_not_le hle
      · exact le_trans (le_of_not_le hle) ((List.sorted_cons.mp hl).1 x hxl)
    · exact hr.1 x hxr

/-- One write step of the loop, seen on the decomposed array. -/
theorem set_decomp (arr : List Int) (k s : Nat) (v : Int) (M : List Int)
    (hk : k < arr.length) :
    (arr.set k v).take (k+1) ++ M ++ (arr.set k v).drop (k+1+s) =
      arr.take k ++ (v :: M) ++ arr.drop (k+1+s) := by
  have htake : (arr.set k v).take (k+1) = arr.take k ++ [v] := by
    rw [List.set_eq_take_cons_drop v hk, List.take_append_eq_append_take]
    have hlen : (arr.take k).length = k := by
      rw [List.length_take]; omega
    rw [List.take_of_length_le (by omega), hlen]
    simp
  have hdrop : (arr.set k v).drop (k+1+s) = arr.drop (k+1+s) := by
    rw [List.drop_set, if_pos (by omega)]
  rw [htake, hdrop]
  simp

/-- The three write-back loops realise `mergeRuns` of the unconsumed parts of
`L` and `R`, written over `arr[k .. k + remaining - 1]`, the rest of `arr`
untouched. -/
theorem merge_loop_eq (L R : List Int) :
    ∀ (n i j k : Nat) (arr : List Int),
      (L.length - i) + (R.length - j) ≤ n →
      k + (L.length - i) + (R.length - j) ≤ arr.length →
      merge_loop L R i j k arr =
        arr.take k ++ mergeRuns (L.drop i) (R.drop j) ++
          arr.drop (k + (L.length - i) + (R.length - j)) := by
  intro n
  induction n with
  | zero =>
    intro i j k arr hn h
    have hi : ¬ i < L.length := by omega
    have hj : ¬ j < R.length := by omega
    rw [merge_loop, dif_neg hi, dif_neg hj]
    rw [List.drop_eq_nil_of_le (by omega), List.drop_eq_nil_of_le (by omega),
      mergeRuns_nil_left]
    have : k + (L.length - i) + (R.length - j) = k := by omega
    rw [this]
    simp
  | succ n ih =>
    intro i j k arr hn h
    rw [merge_loop]
    by_cases hi : i < L.length
    · rw [dif_pos hi]
      by_cases hj : j < R.length
      · rw [dif_pos hj]
        rw [List.drop_eq_getElem_cons hi, List.drop_eq_getElem_cons hj,
          mergeRuns_cons_cons]
        by_cases hle : L.get ⟨i, hi⟩ ≤ R.get ⟨j, hj⟩
        · rw [if_pos hle, if_pos (by simpa using hle)]
          rw [ih (i+1) j (k+1) (arr.set k (L.get ⟨i, hi⟩)) (by omega)
            (by rw [List.length_set]; omega)]
          rw [← List.drop_eq_getElem_cons hj]
          have harith : (k+1) + (L.length - (i+1)) + (R.length - j) =
              (k+1) + ((L.length - (i+1)) + (R.length - j)) := by omega
          have harith2 : k + (L.length - i) + (R.length - j) =
              (k+1) + ((L.length - (i+1)) + (R.length - j)) := by omega
          rw [harith, harith2,
            set_decomp arr k _ _ _ (by omega)]
          simp
        · rw [if_neg hle, if_neg (by simpa using hle)]
          rw [ih i (j+1) (k+1) (arr.set k (R.get ⟨j, hj⟩)) (by omega)
            (by rw [List.length_set]; omega)]
          rw [← List.drop_eq_getElem_cons hi]
          have harith : (k+1) + (L.length - i) + (R.length - (j+1)) =
              (k+1) + ((L.length - i) + (R.length - (j+1))) := by omega
          have harith2 : k + (L.length - i) + (R.length - j) =
              (k+1) + ((L.length - i) + (R.length - (j+1))) := by omega
          rw [harith, harith2,
            set_decomp arr k _ _ _ (by omega)]
          simp
      · rw [dif_neg hj]
        rw [List.drop_eq_getElem_cons hi, show R.drop j = [] from List.drop_eq_nil_of_le (by omega),
          mergeRuns_nil_right]
        rw [ih (i+1) j (k+1) (arr.set k (L.get ⟨i, hi⟩)) (by omega)
          (by rw [List.length_set]; omega)]
        rw [show R.drop j = [] from List.drop_eq_nil_of_le (by omega), mergeRuns_nil_right]
        have harith : (k+1) + (L.length - (i+1)) + (R.length - j) =
            (k+1) + ((L.length - (i+1)) + (R.length - j)) := by omega
        have harith2 : k + (L.length - i) + (R.length - j) =
            (k+1) + ((L.length - (i+1)) + (R.length - j)) := by omega
        rw [harith, harith2, set_decomp arr k _ _ _ (by omega)]
        simp
    · rw [dif_neg hi]
      by_cases hj : j < R.length
      · rw [dif_pos hj]
        rw [show L.drop i = [] from List.drop_eq_nil_of_le (by omega), List.drop_eq_getElem_cons hj,
          mergeRuns_nil_left]
        rw [ih i (j+1) (k+1) (arr.set k (R.get ⟨j, hj⟩)) (by omega)
          (by rw [List.length_set]; omega)]
        rw [show L.drop i = [] from List.drop_eq_nil_of_le (by omega), mergeRuns_nil_left]
        have harith : (k+1) + (L.length - i) + (R.length - (j+1)) =
            (k+1) + ((L.length - i) + (R.length - (j+1))) := by omega
        have harith2 : k + (L.length - i) + (R.length - j) =
            (k+1) + ((L.length - i) + (R.length - (j+1))) := by omega
        rw [harith, harith2, set_decomp arr k _ _ _ (by omega)]
        simp
      · rw [dif_neg hj]
        rw [show L.drop i = [] from List.drop_eq_nil_of_le (by omega),
          show R.drop j = [] from List.drop_eq_nil_of_le (by omega), mergeRuns_nil_left]
        have : k + (L.length - i) + (R.length - j) = k := by omega
        rw [this]
        simp

theorem slice_length (arr : List Int) (left right : Nat) (hr : right < arr.length) :
    (slice arr left right).length = right + 1 - left := by
  rw [slice]
  simp only [List.length_take, List.length_drop]
  omega

/-- Adjacent slices concatenate. -/
theorem slice_append (arr : List Int) (left mid right : Nat)
    (h1 : left ≤ mid + 1) (h2 : mid ≤ right) :
    slice arr left mid ++ slice arr (mid + 1) right = slice arr left right := by
  rw [slice, slice, slice]
  have h3 : arr.drop (mid + 1) = (arr.drop left).drop (mid + 1 - left) := by
    rw [List.drop_drop]
    congr 1
    omega
  rw [h3, ← List.take_add]
  congr 1
  omega

/-- Any sub-range splits the array into prefix, slice and suffix. -/
theorem take_slice_drop (arr : List Int) (left right : Nat) (hlr : left ≤ right + 1) :
    arr.take left ++ slice arr left right ++ arr.drop (right + 1) = arr := by
  rw [slice, List.take_drop]
  have h1 : left + (right + 1 - left) = right + 1 := by omega
  rw [h1]
  have h2 : arr.take left = (arr.take (right + 1)).take left := by
    rw [List.take_take, Nat.min_eq_left hlr]
  rw [h2, List.take_append_drop, List.take_append_drop]

/-- Running `merge_sequential` on a valid triple rewrites the range `[left,right]` to
the interleave of its two runs and leaves the rest of the array alone. -/
theorem merge_sequential_eq (arr : List Int) (left mid right : Nat)
    (h1 : left ≤ mid) (h2 : mid < right) (h3 : right < arr.length) :
    merge_sequential arr left mid right =
      arr.take left ++
        mergeRuns (slice arr left mid) (slice arr (mid + 1) right) ++
        arr.drop (right + 1) := by
  have hL : copyOut arr left (mid - left + 1) = slice arr left mid := by
    rw [copyOut, slice]
    congr 1
    omega
  have hR : copyOut arr (mid + 1) (right - mid) = slice arr (mid + 1) right := by
    rw [copyOut, slice]
    congr 1
    omega
  have hLlen : (slice arr left mid).length = mid + 1 - left :=
    slice_length arr left mid (by omega)
  have hRlen : (slice arr (mid + 1) right).length = right - mid := by
    rw [slice_length arr (mid + 1) right h3]
    omega
  rw [merge_sequential]
  simp only [hL, hR]
  rw [merge_loop_eq _ _ ((slice arr left mid).length + (slice arr (mid + 1) right).length)
    0 0 left arr (by omega) (by rw [hLlen, hRlen]; omega)]
  rw [List.drop_zero, List.drop_zero, hLlen, hRlen]
  congr 2
  omega

/-- The functions `merge_parallel` and `merge_sequential` denote the same array
transformation (same buffers, same interleave). -/
theorem merge_parallel_eq_merge_sequential :
    merge_parallel = merge_sequential := rfl

/-- Base case of the driver: a range with at most one element is returned
unchanged and its slice is already sorted. -/
theorem short_slice_sorted (arr : List Int) (left right : Nat)
    (h : right ≤ left) : (slice arr left right).Sorted (· ≤ ·) := by
  have hlen : (slice arr left right).length ≤ 1 := by
    rw [slice]
    simp only [List.length_take, List.length_drop]
    omega
  cases hsl : slice arr left right with
  | nil => exact List.sorted_nil
  | cons x t =>
    cases t with
    | nil => exact List.sorted_singleton x
    | cons y t' =>
      rw [hsl] at hlen
      simp at hlen

/-- Full correctness of the recursive driver, by strong induction on the
range width: the call returns the array with `arr[left..right]` replaced by a
sorted permutation of itself and everything else untouched. -/
theorem merge_sort_recursive_spec :
    ∀ (fuel : Nat) (arr : List Int) (left right : Nat),
      right - left ≤ fuel → left ≤ right + 1 → right < arr.length →
      ∃ P : List Int,
        merge_sort_recursive arr left right =
            arr.take left ++ P ++ arr.drop (right + 1) ∧
          P.Perm (slice arr left right) ∧ P.Sorted (· ≤ ·) := by
  intro fuel
  induction fuel with
  | zero =>
    intro arr left right hfuel hlr hr
    have hlt : ¬ left < right := by omega
    rw [merge_sort_recursive, if_neg hlt]
    exact ⟨slice arr left right, (take_slice_drop arr left right hlr).symm,
      List.Perm.refl _, short_slice_sorted arr left right (by omega)⟩
  | succ fuel ih =>
    intro arr left right hfuel hlr hr
    by_cases hlt : left < right
    · rw [merge_sort_recursive, if_pos hlt]
      rw [merge_parallel_eq_merge_sequential, ite_self]
      set mid := left + (right - left) / 2 with hmid
      have hlm : left ≤ mid := by omega
      have hmr : mid < right := by omega
      obtain ⟨P1, hd1, hp1, hs1⟩ :=
        ih arr left mid (by omega) (by omega) (by omega)
      set a1 := merge_sort_recursive arr left mid with ha1
      have hP1len : P1.length = mid + 1 - left := by
        rw [hp1.length_eq, slice_length arr left mid (by omega)]
      have hpre1 : (arr.take left ++ P1).length = mid + 1 := by
        simp only [List.length_append, List.length_take, hP1len]
        omega
      have hlen1 : a1.length = arr.length := by
        rw [hd1]
        simp only [List.length_append, List.length_take, List.length_drop, hP1len]
        omega
      obtain ⟨P2, hd2, hp2, hs2⟩ :=
        ih a1 (mid + 1) right (by omega) (by omega) (by omega)
      have hP2len : P2.length = right - mid := by
        rw [hp2.length_eq, slice_length a1 (mid + 1) right (by omega)]
        omega
      have ha1take : a1.take (mid + 1) = arr.take left ++ P1 := by
        rw [hd1]
        rw [show arr.take left ++ P1 ++ arr.drop (mid + 1) =
          (arr.take left ++ P1) ++ arr.drop (mid + 1) from rfl]
        exact List.take_left' hpre1
      have ha1drop : a1.drop (mid + 1) = arr.drop (mid + 1) := by
        rw [hd1]
        rw [show arr.take left ++ P1 ++ arr.drop (mid + 1) =
          (arr.take left ++ P1) ++ arr.drop (mid + 1) from rfl]
        exact List.drop_left' hpre1
      have hslice1 : slice a1 (mid + 1) right = slice arr (mid + 1) right := by
        rw [slice, slice, ha1drop]
      rw [hslice1] at hp2
      have ha1dropr : a1.drop (right + 1) = arr.drop (right + 1) := by
        have h1 : a1.drop (right + 1) = (a1.drop (mid + 1)).drop (right - mid) := by
          rw [List.drop_drop]
          congr 1
          omega
        have h2 : arr.drop (right + 1) = (arr.drop (mid + 1)).drop (right - mid) := by
          rw [List.drop_drop]
          congr 1
          omega
        rw [h1, h2, ha1drop]
      set a2 := merge_sort_recursive a1 (mid + 1) right with ha2
      have hd2' : a2 = arr.take left ++ (P1 ++ (P2 ++ arr.drop (right + 1))) := by
        rw [hd2, ha1take, ha1dropr]
        simp [List.append_assoc]
      have hpre2 : (arr.take left).length = left := by
        rw [List.length_take]
        omega
      have ha2drop : a2.drop left = P1 ++ (P2 ++ arr.drop (right + 1)) := by
        rw [hd2']
        exact List.drop_left' hpre2
      have ha2take : a2.take left = arr.take left := by
        rw [hd2']
        exact List.take_left' hpre2
      have ha2len : a2.length = arr.length := by
        rw [hd2']
        simp only [List.length_append, List.length_take, List.length_drop,
          hP1len, hP2len]
        omega
      have hsliceL : slice a2 left mid = P1 := by
        rw [slice, ha2drop]
        rw [show mid + 1 - left = P1.length from by omega]
        exact List.take_left' rfl
      have hsliceR : slice a2 (mid + 1) right = P2 := by
        rw [slice]
        have h1 : a2.drop (mid + 1) = P2 ++ arr.drop (right + 1) := by
          have h2 : a2.drop (mid + 1) = (a2.drop left).drop (P1.length) := by
            rw [List.drop_drop]
            congr 1
            omega
          rw [h2, ha2drop]
          exact List.drop_left' rfl
        rw [h1, show right + 1 - (mid + 1) = P2.length from by omega]
        exact List.take_left' rfl
      have ha2dropr : a2.drop (right + 1) = arr.drop (right + 1) := by
        rw [hd2']
        rw [show arr.take left ++ (P1 ++ (P2 ++ arr.drop (right + 1))) =
          ((arr.take left ++ P1) ++ P2) ++ arr.drop (right + 1) from by
            simp [List.append_assoc]]
        refine List.drop_left' ?_
        simp only [List.length_append, List.length_take, hP1len, hP2len]
        omega
      rw [merge_sequential_eq a2 left mid right hlm hmr (by omega)]
      refine ⟨mergeRuns P1 P2, ?_, ?_, mergeRuns_sorted hs1 hs2⟩
      · rw [ha2take, hsliceL, hsliceR, ha2dropr]
      · refine (mergeRuns_perm P1 P2).trans ?_
        refine ((hp1.append hp2).trans ?_)
        rw [slice_append arr left mid right (by omega) (by omega)]
    · rw [merge_sort_recursive, if_neg hlt]
      exact ⟨slice arr left right, (take_slice_drop arr left right hlr).symm,
        List.Perm.refl _, short_slice_sorted arr left right (by omega)⟩

theorem mergeRuns_length (l r : List Int) :
    (mergeRuns l r).length = l.length + r.length := by
  rw [(mergeRuns_perm l r).length_eq, List.length_append]

/-- Reading the replaced range back out of the decomposed array. -/
theorem slice_decomp (arr P : List Int) (left right : Nat)
    (hP : P.length = right + 1 - left) (hl : left ≤ arr.length) :
    slice (arr.take left ++ P ++ arr.drop (right + 1)) left right = P := by
  rw [slice]
  rw [show arr.take left ++ P ++ arr.drop (right + 1) =
    arr.take left ++ (P ++ arr.drop (right + 1)) from by simp [List.append_assoc]]
  rw [List.drop_left' (show (arr.take left).length = left from by
    rw [List.length_take]; omega)]
  exact List.take_left' hP

/-- The check `is_array_sorted` succeeds exactly when no adjacent pair is out of
order. -/
theorem is_array_sorted_eq_one_iff_adj (arr : List Int) (n : Nat) :
    is_array_sorted arr n = 1 ↔
      ∀ i : Nat, i + 1 < n → arr.getD i 0 ≤ arr.getD (i + 1) 0 := by
  induction n using Nat.strong_induction_on with
  | _ n ih =>
    by_cases h01 : n = 1 ∨ n = 0
    · rw [is_array_sorted, if_pos h01]
      constructor
      · intro _ i hi
        omega
      · intro _
        rfl
    · rw [is_array_sorted, if_neg h01]
      by_cases hbad : arr.getD (n - 1) 0 < arr.getD (n - 2) 0
      · rw [if_pos hbad]
        constructor
        · intro h
          exact absurd h (by omega)
        · intro hall
          exfalso
          have h2 := hall (n - 2) (by omega)
          rw [show n - 2 + 1 = n - 1 from by omega] at h2
          omega
      · rw [if_neg hbad]
        rw [ih (n - 1) (by omega)]
        constructor
        · intro hall i hi
          by_cases hi2 : i + 1 < n - 1
          · exact hall i hi2
          · have hieq : i = n - 2 := by omega
            subst hieq
            rw [show n - 2 + 1 = n - 1 from by omega]
            omega
        · intro hall i hi
          exact hall i (by omega)

/-- The adjacent-pair condition on the first `n` entries is exactly
sortedness of the `n`-element prefix. -/
theorem sorted_take_iff_adj (arr : List Int) (n : Nat) (hn : n ≤ arr.length) :
    (arr.take n).Sorted (· ≤ ·) ↔
      ∀ i : Nat, i + 1 < n → arr.getD i 0 ≤ arr.getD (i + 1) 0 := by
  have hlen : (arr.take n).length = n := by
    rw [List.length_take]
    omega
  rw [List.Sorted, ← List.chain'_iff_pairwise, List.chain'_iff_get]
  constructor
  · intro h i hi
    have h1 := h i (by rw [hlen]; omega)
    simp only [List.get_eq_getElem, List.getElem_take] at h1
    have e1 : arr.getD i 0 = arr[i] := List.getD_eq_getElem arr 0 (by omega)
    have e2 : arr.getD (i + 1) 0 = arr[i + 1] := List.getD_eq_getElem arr 0 (by omega)
    rw [e1, e2]
    exact h1
  · intro h i hi
    rw [hlen] at hi
    simp only [List.get_eq_getElem, List.getElem_take]
    have e1 : arr.getD i 0 = arr[i] := List.getD_eq_getElem arr 0 (by omega)
    have e2 : arr.getD (i + 1) 0 = arr[i + 1] := List.getD_eq_getElem arr 0 (by omega)
    rw [← e1, ← e2]
    exact h i (by omega)

theorem is_array_sorted_iff_sorted (arr : List Int) (n : Nat)
    (hn : n ≤ arr.length) :
    is_array_sorted arr n = 1 ↔ (arr.take n).Sorted (· ≤ ·) :=
  (is_array_sorted_eq_one_iff_adj arr n).trans (sorted_take_iff_adj arr n hn).symm

/-- The top-level call `merge_sort_recursive(arr, 0, N-1)` sorts the whole
array into a permutation of itself, and `is_array_sorted` accepts it. -/
theorem msr_whole (arr : List Int) :
    (merge_sort_recursive arr 0 (arr.length - 1)).Sorted (· ≤ ·) ∧
    (merge_sort_recursive arr 0 (arr.length - 1)).Perm arr ∧
    is_array_sorted (merge_sort_recursive arr 0 (arr.length - 1)) arr.length = 1 := by
  rcases Nat.eq_zero_or_pos arr.length with hz | hpos
  · have harr : arr = [] := List.length_eq_zero.mp hz
    subst harr
    rw [show merge_sort_recursive [] 0 (List.length ([] : List Int) - 1) = [] from by
      rw [merge_sort_recursive]; simp]
    refine ⟨List.sorted_nil, List.Perm.refl _, ?_⟩
    rw [is_array_sorted]
    simp
  · obtain ⟨P, hd, hp, hs⟩ := merge_sort_recursive_spec (arr.length - 1) arr 0
      (arr.length - 1) le_rfl (by omega) (by omega)
    have hslice : slice arr 0 (arr.length - 1) = arr := by
      rw [slice, List.drop_zero, show arr.length - 1 + 1 - 0 = arr.length from by omega,
        List.take_of_length_le le_rfl]
    have hres : merge_sort_recursive arr 0 (arr.length - 1) = P := by
      rw [hd, List.take_zero, List.nil_append,
        List.drop_eq_nil_of_le (show arr.length ≤ arr.length - 1 + 1 from by omega),
        List.append_nil]
    rw [hslice] at hp
    refine ⟨hres ▸ hs, hres ▸ hp, ?_⟩
    rw [hres]
    rw [is_array_sorted_iff_sorted P arr.length (by rw [hp.length_eq])]
    rw [List.take_of_length_le (by rw [hp.length_eq])]
    exact hs

/-- C1: for every non-negative `N` and every int32 array `arr` of length `N`,
after `merge_sort_recursive(arr, 0, N-1)` returns, `arr[0..N-1]` is sorted in
non-decreasing order; equivalently `is_array_sorted(arr, N)` yields true
(returns 1). -/
theorem claim_C1_sort_sorts (arr : List Int) :
    (merge_sort_recursive arr 0 (arr.length - 1)).Sorted (· ≤ ·) ∧
    is_array_sorted (merge_sort_recursive arr 0 (arr.length - 1)) arr.length = 1 :=
  ⟨(msr_whole arr).1, (msr_whole arr).2.2⟩

/-- C2: `merge_sort_recursive(arr, left, right)` is a permutation of the
range's contents: the multiset of values of `arr[left..right]` after sorting
equals the multiset before. -/
theorem claim_C2_sort_permutes_range (arr : List Int) (left right : Nat)
    (hr : right < arr.length) :
    (slice (merge_sort_recursive arr left right) left right).Perm
      (slice arr left right) := by
  by_cases hlr : left ≤ right + 1
  · obtain ⟨P, hd, hp, _⟩ :=
      merge_sort_recursive_spec (right - left) arr left right le_rfl hlr hr
    rw [hd, slice_decomp arr P left right
      (by rw [hp.length_eq, slice_length arr left right hr]) (by omega)]
    exact hp
  · rw [merge_sort_recursive, if_neg (by omega)]

theorem claim_C2_witness :
    2 < ([3, 1, 2] : List Int).length ∧
    (slice (merge_sort_recursive [3, 1, 2] 0 2) 0 2).Perm
      (slice [3, 1, 2] 0 2) :=
  ⟨by decide, claim_C2_sort_permutes_range [3, 1, 2] 0 2 (by decide)⟩

/-- C3: on a valid triple `left <= mid < right` whose two runs
`arr[left..mid]` and `arr[mid+1..right]` are sorted, `merge_sequential` (and
likewise `merge_parallel`) leaves `arr[left..right]` sorted non-decreasingly
with the same multiset of values it held before the call. -/
theorem claim_C3_merge_sorts_and_permutes (arr : List Int)
    (left mid right : Nat) (h1 : left ≤ mid) (h2 : mid < right)
    (h3 : right < arr.length)
    (hL : (slice arr left mid).Sorted (· ≤ ·))
    (hR : (slice arr (mid + 1) right).Sorted (· ≤ ·)) :
    ((slice (merge_sequential arr left mid right) left right).Sorted (· ≤ ·) ∧
      (slice (merge_sequential arr left mid right) left right).Perm
        (slice arr left right)) ∧
    ((slice (merge_parallel arr left mid right) left right).Sorted (· ≤ ·) ∧
      (slice (merge_parallel arr left mid right) left right).Perm
        (slice arr left right)) := by
  have key : slice (merge_sequential arr left mid right) left right =
      mergeRuns (slice arr left mid) (slice arr (mid + 1) right) := by
    rw [merge_sequential_eq arr left mid right h1 h2 h3]
    refine slice_decomp arr _ left right ?_ (by omega)
    rw [mergeRuns_length, slice_length arr left mid (by omega),
      slice_length arr (mid + 1) right h3]
    omega
  have hperm : (mergeRuns (slice arr left mid)
      (slice arr (mid + 1) right)).Perm (slice arr left right) := by
    refine (mergeRuns_perm _ _).trans ?_
    rw [slice_append arr left mid right (by omega) (by omega)]
  have hseq : (slice (merge_sequential arr left mid right) left right).Sorted
        (· ≤ ·) ∧
      (slice (merge_sequential arr left mid right) left right).Perm
        (slice arr left right) := by
    rw [key]
    exact ⟨mergeRuns_sorted hL hR, hperm⟩
  refine ⟨hseq, ?_⟩
  rw [merge_parallel_eq_merge_sequential]
  exact hseq

theorem claim_C3_witness :
    (0 ≤ 1 ∧ 1 < 3 ∧ 3 < ([1, 3, 2, 4] : List Int).length ∧
      (slice [1, 3, 2, 4] 0 1).Sorted (· ≤ ·) ∧
      (slice [1, 3, 2, 4] 2 3).Sorted (· ≤ ·)) ∧
    (((slice (merge_sequential [1, 3, 2, 4] 0 1 3) 0 3).Sorted (· ≤ ·) ∧
      (slice (merge_sequential [1, 3, 2, 4] 0 1 3) 0 3).Perm
        (slice [1, 3, 2, 4] 0 3)) ∧
    ((slice (merge_parallel [1, 3, 2, 4] 0 1 3) 0 3).Sorted (· ≤ ·) ∧
      (slice (merge_parallel [1, 3, 2, 4] 0 1 3) 0 3).Perm
        (slice [1, 3, 2, 4] 0 3))) :=
  ⟨⟨by decide, by decide, by decide, by decide, by decide⟩,
    claim_C3_merge_sorts_and_permutes [1, 3, 2, 4] 0 1 3 (by decide) (by decide)
      (by decide) (by decide) (by decide)⟩

/-- C4: `merge_parallel` and `merge_sequential` compute the same result on
every input (in the embedding they are literally the same array
transformation; the C functions differ only in how the temporary buffers are
obtained and in running the two copy-out loops concurrently over disjoint
buffers). -/
theorem claim_C4_parallel_equals_sequential (arr : List Int)
    (left mid right : Nat) :
    merge_parallel arr left mid right = merge_sequential arr left mid right :=
  rfl

/-- C5 (code bug in the source): `merge_parallel` never checks the results of
its two `calloc` calls (lines 39-43) and returns `void`, so an allocation
failure is not propagated anywhere: the copy loop writes through the NULL
pointer (undefined behaviour) instead of aborting the sort with a
distinguishable failure outcome.  Evaluated at the failing input
`arr = [2,1], left = 0, mid = 0, right = 1` with the `L` (resp. `R`)
allocation failing; the last conjunct contrasts the successful-allocation
run, which completes the merge. -/
theorem claim_C5_alloc_failure_is_null_write :
    merge_parallel_alloc false true [2, 1] 0 0 1 =
      MergeOutcome.nullPointerWrite ∧
    merge_parallel_alloc true false [2, 1] 0 0 1 =
      MergeOutcome.nullPointerWrite ∧
    merge_parallel_alloc true true [2, 1] 0 0 1 = MergeOutcome.ok [1, 2] := by
  have h : merge_parallel [2, 1] 0 0 1 = [1, 2] := by
    simp [merge_parallel, copyOut, merge_loop]
  exact ⟨rfl, rfl, by
    rw [show merge_parallel_alloc true true [2, 1] 0 0 1 =
      MergeOutcome.ok (merge_parallel [2, 1] 0 0 1) from rfl, h]⟩

/-- C6: for a non-base call (`left < right`), with `size = right - left` and
`mid = left + size/2`, the driver recurses on `[left,mid]` and on
`[mid+1,right]` and then merges: with `merge_sequential` when `size < 2000`,
and with `merge_parallel` when `size >= 2000` (the two forked sorts plus the
`taskwait` join appear in the embedding as the sequential composition of the
two recursive calls, which write disjoint halves). -/
theorem claim_C6_driver_structure (arr : List Int) (left right : Nat)
    (h : left < right) :
    merge_sort_recursive arr left right =
      if right - left < 2000 then
        merge_sequential
          (merge_sort_recursive
            (merge_sort_recursive arr left (left + (right - left) / 2))
            (left + (right - left) / 2 + 1) right)
          left (left + (right - left) / 2) right
      else
        merge_parallel
          (merge_sort_recursive
            (merge_sort_recursive arr left (left + (right - left) / 2))
            (left + (right - left) / 2 + 1) right)
          left (left + (right - left) / 2) right := by
  rw [merge_sort_recursive, if_pos h]

theorem claim_C6_witness :
    0 < 1 ∧
    merge_sort_recursive [1, 0] 0 1 =
      if 1 - 0 < 2000 then
        merge_sequential
          (merge_sort_recursive
            (merge_sort_recursive [1, 0] 0 (0 + (1 - 0) / 2))
            (0 + (1 - 0) / 2 + 1) 1)
          0 (0 + (1 - 0) / 2) 1
      else
        merge_parallel
          (merge_sort_recursive
            (merge_sort_recursive [1, 0] 0 (0 + (1 - 0) / 2))
            (0 + (1 - 0) / 2 + 1) 1)
          0 (0 + (1 - 0) / 2) 1 :=
  ⟨by decide, claim_C6_driver_structure [1, 0] 0 1 (by decide)⟩

/-- C7: in the interleave loop shared by the two merges, a tie between the
current heads (`L[i] = R[j]`) takes the `L[i] <= R[j]` branch: the element
from `L` is written to the output slot `k` and `L`'s index advances. -/
theorem claim_C7_tie_prefers_left (L R : List Int) (i j k : Nat)
    (arr : List Int) (hi : i < L.length) (hj : j < R.length)
    (heq : L.getD i 0 = R.getD j 0) :
    merge_loop L R i j k arr =
      merge_loop L R (i + 1) j (k + 1) (arr.set k (L.getD i 0)) := by
  have e1 : L.getD i 0 = L.get ⟨i, hi⟩ := by
    rw [List.getD_eq_getElem L 0 hi, List.get_eq_getElem]
  have e2 : R.getD j 0 = R.get ⟨j, hj⟩ := by
    rw [List.getD_eq_getElem R 0 hj, List.get_eq_getElem]
  have hle : L.get ⟨i, hi⟩ ≤ R.get ⟨j, hj⟩ := by
    rw [← e1, ← e2, heq]
  rw [merge_loop, dif_pos hi, dif_pos hj, if_pos hle, e1]

theorem claim_C7_witness :
    0 < ([1] : List Int).length ∧ 0 < ([1] : List Int).length ∧
    ([1] : List Int).getD 0 0 = ([1] : List Int).getD 0 0 ∧
    merge_loop [1] [1] 0 0 0 [5, 5] =
      merge_loop [1] [1] 1 0 1 (([5, 5] : List Int).set 0
        (([1] : List Int).getD 0 0)) :=
  ⟨by decide, by decide, by decide,
    claim_C7_tie_prefers_left [1] [1] 0 0 0 [5, 5] (by decide) (by decide)
      (by decide)⟩

/-- C8: on a valid triple, both merges mutate only `arr[left..right]`: every
index outside `[left, right]` holds the same value afterwards. -/
theorem claim_C8_frame (arr : List Int) (left mid right i : Nat)
    (h1 : left ≤ mid) (h2 : mid < right) (h3 : right < arr.length)
    (hout : i < left ∨ right < i) :
    (merge_sequential arr left mid right)[i]? = arr[i]? ∧
    (merge_parallel arr left mid right)[i]? = arr[i]? := by
  have key : (merge_sequential arr left mid right)[i]? = arr[i]? := by
    rw [merge_sequential_eq arr left mid right h1 h2 h3]
    have hMlen : (mergeRuns (slice arr left mid)
        (slice arr (mid + 1) right)).length = right + 1 - left := by
      rw [mergeRuns_length, slice_length arr left mid (by omega),
        slice_length arr (mid + 1) right h3]
      omega
    have htlen : (arr.take left).length = left := by
      rw [List.length_take]
      omega
    have hprelen : (arr.take left ++ mergeRuns (slice arr left mid)
        (slice arr (mid + 1) right)).length = right + 1 := by
      rw [List.length_append, htlen, hMlen]
      omega
    rcases hout with hlt | hgt
    · rw [List.getElem?_append_left (by rw [hprelen]; omega),
        List.getElem?_append_left (by rw [htlen]; omega)]
      exact List.getElem?_take_of_lt hlt
    · rw [List.getElem?_append_right (by rw [hprelen]; omega), hprelen,
        List.getElem?_drop]
      congr 1
      omega
  refine ⟨key, ?_⟩
  rw [merge_parallel_eq_merge_sequential]
  exact key

theorem claim_C8_witness :
    (1 ≤ 1 ∧ 1 < 2 ∧ 2 < ([9, 2, 1, 7] : List Int).length ∧
      (3 < 1 ∨ 2 < 3)) ∧
    (merge_sequential [9, 2, 1, 7] 1 1 2)[3]? = ([9, 2, 1, 7] : List Int)[3]? ∧
    (merge_parallel [9, 2, 1, 7] 1 1 2)[3]? = ([9, 2, 1, 7] : List Int)[3]? :=
  ⟨⟨by decide, by decide, by decide, by decide⟩,
    claim_C8_frame [9, 2, 1, 7] 1 1 2 3 (by decide) (by decide) (by decide)
      (by decide)⟩

/-- C9: the harness's exit behaviour: a usage error (`argc != 2`), a
`strtol` failure (`errno` set or no digits found) or a negative parsed `n`
yields a non-zero exit status, and a valid non-negative `n` (with the array
allocation succeeding and `arr` the length-`n` filled array) yields exit
status 0. -/
theorem claim_C9_exit_status (argc : Nat) (arg : StrtolResult)
    (allocOk : Bool) (arr : List Int) :
    (argc ≠ 2 → main_exit argc arg allocOk arr ≠ 0) ∧
    (arg = StrtolResult.errnoSet ∨ arg = StrtolResult.noDigits →
      main_exit argc arg allocOk arr ≠ 0) ∧
    (∀ n : Int, arg = StrtolResult.value n → n < 0 →
      main_exit argc arg allocOk arr ≠ 0) ∧
    (∀ n : Int, arg = StrtolResult.value n → 0 ≤ n → argc = 2 →
      allocOk = true → arr.length = n.toNat →
      main_exit argc arg allocOk arr = 0) := by
  refine ⟨?_, ?_, ?_, ?_⟩
  · intro h
    rw [main_exit.eq_def, if_pos h]
    simp
  · intro h
    rw [main_exit.eq_def]
    rcases h with rfl | rfl <;> split <;> simp
  · intro n hv hneg
    subst hv
    rw [main_exit.eq_def]
    split
    · simp
    · show (if n < 0 then (1 : Nat)
        else if !allocOk then 1
        else if is_array_sorted
          (merge_sort_recursive arr 0 (n.toNat - 1)) n.toNat = 1 then 0
        else 134) ≠ 0
      rw [if_pos hneg]
      simp
  · intro n hv hge ha2 halloc hlen
    subst hv
    subst ha2
    subst halloc
    rw [main_exit.eq_def, if_neg (by omega)]
    show (if n < 0 then (1 : Nat)
      else if !true then 1
      else if is_array_sorted
        (merge_sort_recursive arr 0 (n.toNat - 1)) n.toNat = 1 then 0
      else 134) = 0
    rw [if_neg (by omega), show (!true) = false from rfl, if_neg (by simp)]
    have hnn : n.toNat = arr.length := hlen.symm
    rw [hnn, if_pos (msr_whole arr).2.2]

theorem claim_C9_witness :
    main_exit 2 (StrtolResult.value 3) true [3, 1, 2] = 0 ∧
    main_exit 3 (StrtolResult.value 3) true [3, 1, 2] ≠ 0 ∧
    main_exit 2 (StrtolResult.value (-1)) true [] ≠ 0 ∧
    main_exit 2 StrtolResult.noDigits true [] ≠ 0 :=
  ⟨(claim_C9_exit_status 2 (StrtolResult.value 3) true [3, 1, 2]).2.2.2 3 rfl
      (by decide) rfl rfl (by decide),
    (claim_C9_exit_status 3 (StrtolResult.value 3) true [3, 1, 2]).1
      (by decide),
    (claim_C9_exit_status 2 (StrtolResult.value (-1)) true []).2.2.1 (-1) rfl
      (by decide),
    (claim_C9_exit_status 2 StrtolResult.noDigits true []).2.1 (Or.inr rfl)⟩

/-- C10: `is_array_sorted(arr, n)` returns 1 iff `arr[0..n-1]` is in
non-decreasing order (adjacent equal values allowed); in particular it
returns 1 for `n = 0` and `n = 1` for every array, without reading any
element. -/
theorem claim_C10_is_array_sorted_correct (arr : List Int) (n : Nat)
    (hn : n ≤ arr.length) :
    (is_array_sorted arr n = 1 ↔ (arr.take n).Sorted (· ≤ ·)) ∧
    is_array_sorted arr 0 = 1 ∧ is_array_sorted arr 1 = 1 := by
  refine ⟨is_array_sorted_iff_sorted arr n hn, ?_, ?_⟩ <;>
    · rw [is_array_sorted]
      simp

theorem claim_C10_witness :
    2 ≤ ([2, 1] : List Int).length ∧
    ((is_array_sorted [2, 1] 2 = 1 ↔
      (([2, 1] : List Int).take 2).Sorted (· ≤ ·)) ∧
    is_array_sorted [2, 1] 0 = 1 ∧ is_array_sorted [2, 1] 1 = 1) :=
  ⟨by decide, claim_C10_is_array_sorted_correct [2, 1] 2 (by decide)⟩

end PMS
